import Mathlib

/-!
Verification of the bulk-sender batch-transfer orchestration and reconciliation
engine.  Each definition is a shallow embedding of the corresponding TypeScript
(or Solidity) function of the repository; theorems settle the spec's claims
about them.  TypeScript `bigint` is modelled as `Int` (or `Nat` where the
source value is provably non-negative), JS `Map` as an association list with
JS insertion semantics, and fallible code as `Except`.
-/

set_option autoImplicit false

namespace BulkSender

universe u

/-! ## Reconciliation engine (`verifyTransfers`, verify-transfers script)

The script builds three `Map<string, bigint>`s and, for every entry of the
recipients map, compares `endBalance` against `startBalance + expectedAmount`,
defaulting absent balances to `0n`. -/

/-- Output record of the reconciliation engine, embedding the script's
`VerificationResult` interface (`difference?: bigint` becomes `Option Int`). -/
structure VerificationResult where
  address : String
  startBalance : Int
  expectedAmount : Int
  endBalance : Int
  calculatedEnd : Int
  «matches» : Bool
  difference : Option Int
  deriving Repr, DecidableEq

/-- Embeds `map.get(addr) || 0n` on a `Map<string, bigint>`: the stored value
when the key is present (a stored `0n` is falsy in JS, but `0n || 0n = 0n`,
so the default coincides), `0n` otherwise. -/
def mapGetD (m : List (String × Int)) (k : String) : Int :=
  (m.lookup k).getD 0

/-- Body of the `verifyTransfers` loop for a single `[address, expectedAmount]`
entry of the recipients map. -/
def verifyOne (startBalances endBalances : List (String × Int))
    (p : String × Int) : VerificationResult :=
  let startBalance := mapGetD startBalances p.1
  let endBalance := mapGetD endBalances p.1
  let calculatedEnd := startBalance + p.2
  let «matches» := endBalance == calculatedEnd
  { address := p.1
    startBalance := startBalance
    expectedAmount := p.2
    endBalance := endBalance
    calculatedEnd := calculatedEnd
    «matches» := «matches»
    difference := if «matches» then none else some (endBalance - calculatedEnd) }

/-- Embeds `verifyTransfers(startBalances, endBalances, recipients)`: one
result per entry of the recipients map, in iteration (= insertion) order. -/
def verifyTransfers (startBalances endBalances recipients : List (String × Int)) :
    List VerificationResult :=
  recipients.map (verifyOne startBalances endBalances)

/-- C1: for each address in the expected-transfer map, the reconciliation
result's `matches` field is true iff the end balance (default 0 when absent)
equals the start balance (default 0 when absent) plus the expected amount;
when `matches` is false the `difference` field is present and equals
`endBalance - (startBalance + expectedAmount)` as an exact signed integer,
and when `matches` is true the `difference` field is absent. -/
theorem verifyTransfers_matches_iff
    (startBalances endBalances recipients : List (String × Int)) (i : Nat)
    (p : String × Int) (hp : recipients[i]? = some p) :
    ∃ r : VerificationResult,
      (verifyTransfers startBalances endBalances recipients)[i]? = some r ∧
      r.address = p.1 ∧
      r.startBalance = mapGetD startBalances p.1 ∧
      r.expectedAmount = p.2 ∧
      r.endBalance = mapGetD endBalances p.1 ∧
      r.calculatedEnd = r.startBalance + r.expectedAmount ∧
      (r.«matches» = true ↔
        mapGetD endBalances p.1 = mapGetD startBalances p.1 + p.2) ∧
      (r.«matches» = true → r.difference = none) ∧
      (r.«matches» = false →
        r.difference = some (mapGetD endBalances p.1 -
          (mapGetD startBalances p.1 + p.2))) := by
  refine ⟨verifyOne startBalances endBalances p, ?_, rfl, rfl, rfl, rfl, rfl, ?_, ?_, ?_⟩
  · simp [verifyTransfers, List.getElem?_map, hp]
  · simp [verifyOne]
  · intro h
    simp only [verifyOne] at h ⊢
    simp [h]
  · intro h
    simp only [verifyOne] at h ⊢
    simp [h]

/-- Witness for C1 at a concrete input: start `{a ↦ 100}`, end `{a ↦ 150}`,
expected `{a ↦ 50}` — the single result matches and carries no difference. -/
theorem verifyTransfers_matches_iff_witness :
    ∃ r : VerificationResult,
      (verifyTransfers [("0xa", 100)] [("0xa", 150)] [("0xa", 50)])[0]? = some r ∧
      r.address = "0xa" ∧
      r.startBalance = mapGetD [("0xa", 100)] "0xa" ∧
      r.expectedAmount = 50 ∧
      r.endBalance = mapGetD [("0xa", 150)] "0xa" ∧
      r.calculatedEnd = r.startBalance + r.expectedAmount ∧
      (r.«matches» = true ↔
        mapGetD [("0xa", 150)] "0xa" = mapGetD [("0xa", 100)] "0xa" + 50) ∧
      (r.«matches» = true → r.difference = none) ∧
      (r.«matches» = false →
        r.difference = some (mapGetD [("0xa", 150)] "0xa" -
          (mapGetD [("0xa", 100)] "0xa" + 50))) :=
  verifyTransfers_matches_iff [("0xa", 100)] [("0xa", 150)] [("0xa", 50)] 0
    ("0xa", 50) rfl

/-! ## Batch partitioner (`createBatches`, test/helpers)

The source loop is
`for (let i = 0; i < array.length; i += batchSize) batches.push(array.slice(i, i + batchSize))`.
`createBatches` below is the loop expressed as structural recursion on the
not-yet-consumed suffix of the array (valid under the precondition
`batchSize ≥ 1`, under which each iteration consumes at least one element);
the fuel argument only bounds the iteration count and `array.length` is always
enough.  `createBatchesLoop` further down embeds the raw loop—including its
divergence for non-positive `batchSize`—as a fuelled step semantics. -/

/-- Fuelled recursion on the remaining suffix: one constructor step per loop
iteration, emitting `slice(i, i + batchSize) = l.take batchSize` of the
current suffix `l` and continuing with `l.drop batchSize`. -/
def createBatchesAux {α : Type u} (batchSize : Nat) : Nat → List α → List (List α)
  | _, [] => []
  | 0, _ :: _ => []
  | fuel + 1, a :: rest =>
      (a :: rest).take batchSize :: createBatchesAux batchSize fuel ((a :: rest).drop batchSize)

/-- Embeds `createBatches(array, batchSize)` for `batchSize ≥ 1`. -/
def createBatches {α : Type u} (array : List α) (batchSize : Nat) : List (List α) :=
  createBatchesAux batchSize array.length array

theorem createBatchesAux_nil {α : Type u} (b fuel : Nat) :
    createBatchesAux (α := α) b fuel [] = [] := by
  cases fuel <;> rfl

theorem createBatchesAux_cons {α : Type u} (b fuel : Nat) (l : List α) (hl : l ≠ []) :
    createBatchesAux b (fuel + 1) l =
      l.take b :: createBatchesAux b fuel (l.drop b) := by
  cases l with
  | nil => exact absurd rfl hl
  | cons a rest => rfl

theorem createBatchesAux_ne_nil {α : Type u} (b fuel : Nat) (l : List α)
    (hl : l ≠ []) :
    createBatchesAux b (fuel + 1) l ≠ [] := by
  rw [createBatchesAux_cons b fuel l hl]
  simp

theorem createBatchesAux_flatten {α : Type u} (b : Nat) (hb : 1 ≤ b) :
    ∀ (fuel : Nat) (l : List α), l.length ≤ fuel →
      (createBatchesAux b fuel l).flatten = l := by
  intro fuel
  induction fuel with
  | zero =>
    intro l hl
    have : l = [] := List.eq_nil_of_length_eq_zero (Nat.le_zero.mp hl)
    subst this
    rfl
  | succ fuel ih =>
    intro l hl
    cases l with
    | nil => rfl
    | cons a rest =>
      rw [createBatchesAux_cons b fuel (a :: rest) (by simp)]
      have hdrop : ((a :: rest).drop b).length ≤ fuel := by
        simp only [List.length_drop, List.length_cons] at *
        omega
      simp only [List.flatten_cons, ih ((a :: rest).drop b) hdrop,
        List.take_append_drop]

theorem createBatchesAux_dropLast {α : Type u} (b : Nat) (hb : 1 ≤ b) :
    ∀ (fuel : Nat) (l : List α), l.length ≤ fuel →
      ∀ batch ∈ (createBatchesAux b fuel l).dropLast, batch.length = b := by
  intro fuel
  induction fuel with
  | zero =>
    intro l hl batch hbatch
    have : l = [] := List.eq_nil_of_length_eq_zero (Nat.le_zero.mp hl)
    subst this
    rw [createBatchesAux_nil] at hbatch
    simp at hbatch
  | succ fuel ih =>
    intro l hl batch hbatch
    cases l with
    | nil =>
      rw [createBatchesAux_nil] at hbatch
      simp at hbatch
    | cons a rest =>
      rw [createBatchesAux_cons b fuel (a :: rest) (by simp)] at hbatch
      by_cases hd : (a :: rest).drop b = []
      · rw [hd, createBatchesAux_nil] at hbatch
        simp at hbatch
      · have hdlen : ((a :: rest).drop b).length ≤ fuel := by
          simp only [List.length_drop, List.length_cons] at *
          omega
        have htail : createBatchesAux b fuel ((a :: rest).drop b) ≠ [] := by
          cases fuel with
          | zero =>
            exact absurd (List.eq_nil_of_length_eq_zero (Nat.le_zero.mp hdlen)) hd
          | succ fuel => exact createBatchesAux_ne_nil b fuel _ hd
        rw [List.dropLast_cons_of_ne_nil htail] at hbatch
        rcases List.mem_cons.mp hbatch with h | h
        · subst h
          have hblt : b < (a :: rest).length := by
            by_contra hle
            exact hd (List.drop_eq_nil_iff.mpr (by omega))
          simp only [List.length_take, List.length_cons]
          simp only [List.length_cons] at hblt
          omega
        · exact ih _ hdlen batch h

theorem createBatchesAux_getLast {α : Type u} (b : Nat) (hb : 1 ≤ b) :
    ∀ (fuel : Nat) (l : List α), l ≠ [] → l.length ≤ fuel →
      ∃ last, (createBatchesAux b fuel l).getLast? = some last ∧ last ≠ [] ∧
        last.length = if l.length % b = 0 then b else l.length % b := by
  intro fuel
  induction fuel with
  | zero =>
    intro l hl hlen
    exact absurd (List.eq_nil_of_length_eq_zero (Nat.le_zero.mp hlen)) hl
  | succ fuel ih =>
    intro l hl hlen
    rw [createBatchesAux_cons b fuel l hl]
    by_cases hd : l.drop b = []
    · have hlb : l.length ≤ b := List.drop_eq_nil_iff.mp hd
      have hlpos : 0 < l.length := List.length_pos.mpr hl
      refine ⟨l.take b, ?_, ?_, ?_⟩
      · rw [hd, createBatchesAux_nil]
        rfl
      · simpa [List.take_eq_nil_iff, Nat.not_eq_zero_of_lt hb] using hl
      · rw [List.take_of_length_le hlb]
        rcases Nat.lt_or_ge l.length b with hlt | hge
        · rw [Nat.mod_eq_of_lt hlt, if_neg (by omega)]
        · have : l.length = b := Nat.le_antisymm hlb hge
          rw [this, Nat.mod_self, if_pos rfl]
    · have hdlen : (l.drop b).length ≤ fuel := by
        have hblt : b < l.length := by
          by_contra hle
          exact hd (List.drop_eq_nil_iff.mpr (by omega))
        simp only [List.length_drop]
        omega
      obtain ⟨last, h1, h2, h3⟩ := ih (l.drop b) hd hdlen
      obtain ⟨y, ys, hys⟩ := List.exists_cons_of_ne_nil
        (l := createBatchesAux b fuel (l.drop b))
        (by
          cases fuel with
          | zero => exact absurd (List.eq_nil_of_length_eq_zero (Nat.le_zero.mp hdlen)) hd
          | succ fuel => exact createBatchesAux_ne_nil b fuel _ hd)
      refine ⟨last, ?_, h2, ?_⟩
      · rw [hys, List.getLast?_cons_cons, ← hys, h1]
      · have hble : b ≤ l.length := by
          by_contra hlt
          exact hd (List.drop_eq_nil_iff.mpr (by omega))
        rw [h3, List.length_drop, ← Nat.mod_eq_sub_mod hble]

/-- C2: for every entry sequence `E` and positive batch size `B`,
concatenating the batches of `createBatches E B` reproduces `E` exactly (so
the total entry count equals the input length), every batch except possibly
the last has length exactly `B`, and the last batch is non-empty of length
`E.length % B`, or `B` when `B` divides `E.length`. -/
theorem createBatches_partition {α : Type u} (E : List α) (B : Nat) (hB : 1 ≤ B) :
    (createBatches E B).flatten = E ∧
    ((createBatches E B).map List.length).sum = E.length ∧
    (∀ batch ∈ (createBatches E B).dropLast, batch.length = B) ∧
    ∀ last, (createBatches E B).getLast? = some last →
      last ≠ [] ∧ last.length = if E.length % B = 0 then B else E.length % B := by
  have hflat : (createBatches E B).flatten = E :=
    createBatchesAux_flatten B hB E.length E le_rfl
  refine ⟨hflat, ?_, ?_, ?_⟩
  · rw [← List.length_flatten, hflat]
  · exact createBatchesAux_dropLast B hB E.length E le_rfl
  · intro last hlast
    by_cases hE : E = []
    · subst hE
      simp only [createBatches, List.length_nil, createBatchesAux_nil] at hlast
      simp at hlast
    · obtain ⟨last', h1, h2, h3⟩ :=
        createBatchesAux_getLast B hB E.length E hE le_rfl
      simp only [createBatches] at hlast
      rw [h1] at hlast
      obtain rfl := Option.some.inj hlast
      exact ⟨h2, h3⟩

/-- Witness for C2 at a concrete input: partitioning five entries with batch
size two gives flattening back the input. -/
theorem createBatches_partition_witness :
    (createBatches [1, 2, 3, 4, 5] 2).flatten = [1, 2, 3, 4, 5] :=
  (createBatches_partition [1, 2, 3, 4, 5] 2 (by decide)).1

/-! ## Raw loop semantics of `createBatches` (for the termination claim)

The loop counter is a JS number that can go negative, so it is modelled as
`Int`; `jsSlice` embeds `Array.prototype.slice` (negative indices count from
the end, both indices clamp to the array bounds).  One fuel unit is one
iteration of the `for` loop; `none` means the loop has not exited within the
given number of iterations. -/

/-- JS `slice` index normalization: negative indices count from the end and
clamp at `0`; non-negative ones clamp at the length. -/
def jsNormIdx (len : Nat) (i : Int) : Nat :=
  if i < 0 then ((len : Int) + i).toNat else min i.toNat len

/-- Embeds `array.slice(s, e)`. -/
def jsSlice {α : Type u} (arr : List α) (s e : Int) : List α :=
  (arr.take (jsNormIdx arr.length e)).drop (jsNormIdx arr.length s)

/-- One-iteration-per-fuel-unit semantics of the `createBatches` loop body,
from loop counter `i` and accumulated `batches`. -/
def createBatchesLoopAux {α : Type u} (arr : List α) (batchSize : Int) :
    Nat → Int → List (List α) → Option (List (List α))
  | 0, _, _ => none
  | fuel + 1, i, batches =>
      if i < (arr.length : Int) then
        createBatchesLoopAux arr batchSize fuel (i + batchSize)
          (batches ++ [jsSlice arr i (i + batchSize)])
      else some batches

/-- The `createBatches` loop run from its initial state (`i = 0`, no batches),
allowed at most `fuel` iterations. -/
def createBatchesLoop {α : Type u} (arr : List α) (batchSize : Int) (fuel : Nat) :
    Option (List (List α)) :=
  createBatchesLoopAux arr batchSize fuel 0 []

theorem createBatchesLoopAux_terminates {α : Type u} (arr : List α) (b : Int)
    (hb : 1 ≤ b) :
    ∀ (fuel : Nat) (i : Int) (acc : List (List α)),
      (((arr.length : Int) - i).toNat < fuel) →
      ∃ res, createBatchesLoopAux arr b fuel i acc = some res := by
  intro fuel
  induction fuel with
  | zero => intro i acc h; omega
  | succ fuel ih =>
    intro i acc h
    by_cases hi : i < (arr.length : Int)
    · have : (((arr.length : Int) - (i + b)).toNat < fuel) := by omega
      obtain ⟨res, hres⟩ := ih (i + b) (acc ++ [jsSlice arr i (i + b)]) this
      exact ⟨res, by rw [createBatchesLoopAux, if_pos hi, hres]⟩
    · exact ⟨acc, by rw [createBatchesLoopAux, if_neg hi]⟩

theorem createBatchesLoopAux_diverges {α : Type u} (arr : List α) (b : Int)
    (hb : b ≤ 0) (harr : arr ≠ []) :
    ∀ (fuel : Nat) (i : Int) (acc : List (List α)), i ≤ 0 →
      createBatchesLoopAux arr b fuel i acc = none := by
  have hlen : 1 ≤ arr.length := List.length_pos.mpr harr
  intro fuel
  induction fuel with
  | zero => intro i acc _; rfl
  | succ fuel ih =>
    intro i acc hi
    have hcond : i < (arr.length : Int) := by omega
    rw [createBatchesLoopAux, if_pos hcond]
    exact ih (i + b) _ (by omega)

/-- C10: the `createBatches` loop terminates for every input array when
`batchSize ≥ 1` (the index strictly increases each iteration, so
`array.length + 1` iterations always suffice), while for `batchSize ≤ 0` and
a non-empty array no number of iterations makes the loop exit, so the
`batchSize ≥ 1` precondition is necessary for totality. -/
theorem createBatchesLoop_terminates_iff_pos {α : Type u} :
    (∀ (arr : List α) (batchSize : Int), 1 ≤ batchSize →
      ∃ res, createBatchesLoop arr batchSize (arr.length + 1) = some res) ∧
    (∀ (arr : List α) (batchSize : Int), batchSize ≤ 0 → arr ≠ [] →
      ∀ fuel, createBatchesLoop arr batchSize fuel = none) := by
  constructor
  · intro arr b hb
    exact createBatchesLoopAux_terminates arr b hb (arr.length + 1) 0 [] (by omega)
  · intro arr b hb harr fuel
    exact createBatchesLoopAux_diverges arr b hb harr fuel 0 [] le_rfl

/-- Witness for C10 at concrete inputs: with batch size `1` the loop on `[7]`
exits with a result, and with batch size `0` it never exits. -/
theorem createBatchesLoop_terminates_iff_pos_witness :
    (∃ res, createBatchesLoop [7] 1 2 = some res) ∧
    (∀ fuel, createBatchesLoop [7] 0 fuel = none) :=
  ⟨(createBatchesLoop_terminates_iff_pos (α := Nat)).1 [7] 1 (by decide),
    fun fuel => (createBatchesLoop_terminates_iff_pos (α := Nat)).2 [7] 0
      (by decide) (by decide) fuel⟩

/-! ## Batch transfer driver (`processTransferBatches` / `processSingleBatch`)

`processTransferBatches` iterates `for (let i = 0; i < batches.length; i++)
await processSingleBatch(batches[i], ...)`; a throw from any batch propagates
and stops the loop, leaving earlier batches' confirmed effects in place.  The
per-batch body is abstracted as `step : Nat → β → Except ε σ` (index and
batch in, either an effect `σ` — the on-chain state change — or the thrown
error); the run is embedded as a fold that records, per attempted batch, its
index, its effect when it succeeds, and the failing index with its error. -/

/-- Observable outcome of one driver run: effects of the batches that
completed (in order, with their indices), the indices that were attempted at
all, and the failing batch's index with its error (`none` when all batches
succeeded). -/
structure BatchRun (σ ε : Type) where
  effects : List (Nat × σ)
  attempted : List Nat
  error : Option (Nat × ε)
  deriving Repr, DecidableEq

/-- The driver loop from batch index `i` on: sequential, stopping at the
first batch whose `step` throws. -/
def processBatchesFrom {β σ ε : Type} (step : Nat → β → Except ε σ) :
    Nat → List β → BatchRun σ ε
  | _, [] => ⟨[], [], none⟩
  | i, batch :: rest =>
    match step i batch with
    | .ok s =>
        let r := processBatchesFrom step (i + 1) rest
        ⟨(i, s) :: r.effects, i :: r.attempted, r.error⟩
    | .error e => ⟨[], [i], some (i, e)⟩

/-- Embeds `processTransferBatches(batches, ...)`: the driver loop started at
the first batch. -/
def processTransferBatches {β σ ε : Type} (step : Nat → β → Except ε σ)
    (batches : List β) : BatchRun σ ε :=
  processBatchesFrom step 0 batches

theorem range_map_shift {γ : Type} (g : Nat → γ) (start m : Nat) :
    (List.range (m + 1)).map (fun k => g (start + k)) =
      g start :: (List.range m).map (fun k => g (start + 1 + k)) := by
  rw [List.range_succ_eq_map, List.map_cons, List.map_map]
  refine congrArg₂ List.cons (by rw [Nat.add_zero]) ?_
  exact List.map_congr_left fun a _ => congrArg g (by omega)

theorem processBatchesFrom_first_error {β σ ε : Type} (step : Nat → β → Except ε σ)
    (f : Nat → σ) :
    ∀ (l : List β) (start i : Nat) (e : ε),
      i < l.length →
      (∀ k x, k < i → l[k]? = some x → step (start + k) x = .ok (f (start + k))) →
      (∀ x, l[i]? = some x → step (start + i) x = .error e) →
      processBatchesFrom step start l =
        ⟨(List.range i).map (fun k => (start + k, f (start + k))),
         (List.range (i + 1)).map (fun k => start + k),
         some (start + i, e)⟩ := by
  intro l
  induction l with
  | nil => intro start i e hi _ _; simp at hi
  | cons b rest ih =>
    intro start i e hi hok herr
    cases i with
    | zero =>
      have hstep : step start b = .error e := by
        simpa using herr b (by simp)
      simp [processBatchesFrom, hstep, List.range_succ]
    | succ m =>
      have hstep : step start b = .ok (f start) := by
        simpa using hok 0 b (Nat.succ_pos m) (by simp)
      have hrec := ih (start + 1) m e (by simpa using hi)
        (fun k x hk hx => by
          have := hok (k + 1) x (Nat.succ_lt_succ hk) (by simpa using hx)
          rw [show start + (k + 1) = start + 1 + k by omega] at this
          exact this)
        (fun x hx => by
          have := herr x (by simpa using hx)
          rw [show start + (m + 1) = start + 1 + m by omega] at this
          exact this)
      simp only [processBatchesFrom, hstep, hrec]
      simp only [BatchRun.mk.injEq]
      refine ⟨?_, ?_, ?_⟩
      · exact (range_map_shift (fun j => (j, f j)) start m).symm
      · exact (range_map_shift (fun j => j) start (m + 1)).symm
      · rw [show start + 1 + m = start + (m + 1) by omega]

/-- C3: if every batch before index `i` succeeds and batch `i` fails (its
submission reverts or a fatal step throws), the run attempts exactly the
batches `0..i` (no batch after `i` is attempted), the propagated error
identifies batch `i`, and the effects of every earlier batch `k < i` remain
in place — the run performs no rollback. -/
theorem processTransferBatches_halts_at_first_failure {β σ ε : Type}
    (step : Nat → β → Except ε σ) (batches : List β) (i : Nat) (e : ε)
    (f : Nat → σ)
    (hi : i < batches.length)
    (hok : ∀ k x, k < i → batches[k]? = some x → step k x = .ok (f k))
    (herr : ∀ x, batches[i]? = some x → step i x = .error e) :
    processTransferBatches step batches =
      ⟨(List.range i).map (fun k => (k, f k)), List.range (i + 1), some (i, e)⟩ := by
  have h := processBatchesFrom_first_error step f batches 0 i e hi
    (fun k x hk hx => by simpa using hok k x hk hx)
    (fun x hx => by simpa using herr x hx)
  unfold processTransferBatches
  rw [h]
  simp only [BatchRun.mk.injEq]
  exact ⟨List.map_congr_left fun a _ => by simp, by simp, by simp⟩

/-- Witness for C3 at a concrete input: three batches where batch 1 reverts —
batch 0's effect stays, batches 0 and 1 are attempted, batch 2 is not, and
the error names batch 1. -/
theorem processTransferBatches_halts_at_first_failure_witness :
    processTransferBatches
      (fun k (_ : Nat) =>
        if k = 1 then (Except.error "revert" : Except String Nat) else .ok 0)
      [10, 20, 30] =
      ⟨[(0, 0)], [0, 1], some (1, "revert")⟩ :=
  processTransferBatches_halts_at_first_failure _ [10, 20, 30] 1 "revert"
    (fun _ => 0) (by decide)
    (fun k x hk hx => by
      have : k = 0 := by omega
      subst this
      simp)
    (fun x hx => by simp)

/-! ## Per-batch driver steps (`processSingleBatch`, `estimateGasCosts`)

Two versions of `processSingleBatch` exist in the repository: the one in
`scripts/helpers/transferHelpers.ts`, whose `write.bulkSendERC20Different`
submission block is commented out, and an earlier helper-file version whose
submission is live with gas `gasEstimate + gasEstimate / 10n`.  Both run
simulate, then gas estimation, inside a single `try` whose `catch` logs and
rethrows.  The chain's responses are abstracted as an environment record;
the embedding returns the list of chain interactions performed and the
batch's outcome. -/

/-- One chain interaction of the per-batch driver. -/
inductive DriverAction where
  | simulate
  | estimateGas
  | submit (recipients : List String) (amounts : List Nat) (gas : Nat)
  | verify
  deriving Repr, DecidableEq

/-- Abstract chain responses for one batch: the outcome of the simulate call,
the gas-estimation call, the submission, and the post-transfer sample
verification. -/
structure ChainEnv where
  simulateResult : Except String Unit
  estimateGasResult : Except String Nat
  writeResult : Except String String
  verifyResult : Except String Unit

/-- Embeds `processSingleBatch` of `scripts/helpers/transferHelpers.ts`:
simulate, estimate gas, (submission commented out in the source), verify;
any error is rethrown by the `catch`. -/
def processSingleBatch (env : ChainEnv) :
    List DriverAction × Except String Unit :=
  match env.simulateResult with
  | .error e => ([.simulate], .error e)
  | .ok _ =>
    match env.estimateGasResult with
    | .error e => ([.simulate, .estimateGas], .error e)
    | .ok _ =>
      match env.verifyResult with
      | .error e => ([.simulate, .estimateGas, .verify], .error e)
      | .ok _ => ([.simulate, .estimateGas, .verify], .ok ())

/-- Embeds the earlier `processSingleBatch` version whose submission is live:
after simulate and gas estimation succeed it calls
`write.bulkSendERC20Different([token, recipients, amounts], { gas:
gasEstimate + gasEstimate / 10n })`, then verifies. -/
def processSingleBatchSubmitting (env : ChainEnv) (batch : List (String × Nat)) :
    List DriverAction × Except String Unit :=
  let recipients := batch.map Prod.fst
  let amounts := batch.map Prod.snd
  match env.simulateResult with
  | .error e => ([.simulate], .error e)
  | .ok _ =>
    match env.estimateGasResult with
    | .error e => ([.simulate, .estimateGas], .error e)
    | .ok gasEstimate =>
      match env.writeResult with
      | .error e =>
          ([.simulate, .estimateGas,
            .submit recipients amounts (gasEstimate + gasEstimate / 10)], .error e)
      | .ok _ =>
          ([.simulate, .estimateGas,
            .submit recipients amounts (gasEstimate + gasEstimate / 10), .verify],
           .ok ())

/-- Embeds the standalone `estimateGasCosts` helper: on success the estimate,
on failure a `console.warn` (second component) and `null`.  No caller of this
helper exists in the repository. -/
def estimateGasCosts (estimateResult : Except String Nat) : Option Nat × Bool :=
  match estimateResult with
  | .ok g => (some g, false)
  | .error _ => (none, true)

/-- Counterexample to C4 as stated: at the concrete input where simulation
succeeds and gas estimation fails, the driver does not proceed to a
submission — it performs only the simulate and estimate steps and aborts the
batch with the estimation error, contradicting "proceeds to submit the batch
without a gas ceiling, and does not abort the batch or the run". -/
theorem processSingleBatch_gas_error_aborts :
    processSingleBatch ⟨.ok (), .error "could not estimate gas", .ok "0x", .ok ()⟩ =
      ([.simulate, .estimateGas], .error "could not estimate gas") ∧
    processSingleBatchSubmitting
        ⟨.ok (), .error "could not estimate gas", .ok "0x", .ok ()⟩ [("0xa", 1)] =
      ([.simulate, .estimateGas], .error "could not estimate gas") :=
  ⟨rfl, rfl⟩

/-- C4 (amended): a failure of the standalone `estimateGasCosts` helper is
non-fatal at the helper level — it surfaces a warning and falls back to a
null estimate — but in both batch drivers the gas-estimation step runs inside
the fatal `try` block, so an estimation failure aborts the batch (and hence
the run) with that error, and no submission, with or without a gas ceiling,
is performed. -/
theorem gasEstimation_fatal_in_driver
    (env : ChainEnv) (batch : List (String × Nat)) (m : String)
    (hsim : env.simulateResult = .ok ())
    (hest : env.estimateGasResult = .error m) :
    estimateGasCosts (.error m) = (none, true) ∧
    processSingleBatch env = ([.simulate, .estimateGas], .error m) ∧
    processSingleBatchSubmitting env batch =
      ([.simulate, .estimateGas], .error m) := by
  refine ⟨rfl, ?_, ?_⟩ <;>
    simp [processSingleBatch, processSingleBatchSubmitting, hsim, hest]

/-- Witness for C4 (amended) at a concrete input. -/
theorem gasEstimation_fatal_in_driver_witness :
    estimateGasCosts (.error "boom") = (none, true) ∧
    processSingleBatch ⟨.ok (), .error "boom", .ok "0x", .ok ()⟩ =
      ([.simulate, .estimateGas], .error "boom") ∧
    processSingleBatchSubmitting ⟨.ok (), .error "boom", .ok "0x", .ok ()⟩
        [("0xb", 2)] =
      ([.simulate, .estimateGas], .error "boom") :=
  gasEstimation_fatal_in_driver ⟨.ok (), .error "boom", .ok "0x", .ok ()⟩
    [("0xb", 2)] "boom" rfl rfl

/-- C8: when simulation and gas estimation succeed, the (submitting) driver
submits the bulk-transfer call with the batch's recipient and amount arrays,
and the submitted gas limit is the estimate padded by the fixed 10% margin
`gasEstimate + gasEstimate / 10`. -/
theorem processSingleBatchSubmitting_pads_gas
    (env : ChainEnv) (batch : List (String × Nat)) (g : Nat)
    (hsim : env.simulateResult = .ok ())
    (hest : env.estimateGasResult = .ok g) :
    DriverAction.submit (batch.map Prod.fst) (batch.map Prod.snd) (g + g / 10) ∈
      (processSingleBatchSubmitting env batch).1 := by
  cases hw : env.writeResult <;>
    simp [processSingleBatchSubmitting, hsim, hest, hw]

/-- Witness for C8 at a concrete input: estimate 100 gives submitted gas
limit 110. -/
theorem processSingleBatchSubmitting_pads_gas_witness :
    DriverAction.submit ["0xa"] [5] 110 ∈
      (processSingleBatchSubmitting ⟨.ok (), .ok 100, .ok "0xhash", .ok ()⟩
        [("0xa", 5)]).1 :=
  processSingleBatchSubmitting_pads_gas
    ⟨.ok (), .ok 100, .ok "0xhash", .ok ()⟩ [("0xa", 5)] 100 rfl rfl

/-! ## Allowance guard (`checkTokenAllowance`, contractHelpers.ts)

The guard reads the current allowance; when it is below the required total it
resets a non-zero allowance to `0` (awaiting confirmation), approves the
required amount (awaiting confirmation), re-reads the allowance and throws
when the re-read value is still below the requirement.  The chain is
abstracted as: the initially read allowance, whether each write's awaited
receipt confirms (vs. reverts), and the re-read allowance after approval.
The embedding returns the list of issued `approve` amounts, in order, plus
the outcome (the source returns the originally read `currentAllowance`). -/

/-- Errors thrown by the allowance guard: a write whose awaited receipt has
reverted status, or the final re-read check failing. -/
inductive AllowanceError where
  | reverted
  | approvalFailed (expected actual : Nat)
  deriving Repr, DecidableEq

/-- Abstract chain behaviour seen by one `checkTokenAllowance` call. -/
structure AllowanceEnv where
  allowance : Nat
  resetConfirms : Bool
  approveConfirms : Bool
  allowanceAfterApprove : Nat
  deriving Repr, DecidableEq

/-- Embeds `checkTokenAllowance(tokenContract, signer, spender, required)`:
first component is the list of `approve(spender, amount)` writes issued, in
order; second the outcome. -/
def checkTokenAllowance (env : AllowanceEnv) (required : Nat) :
    List Nat × Except AllowanceError Nat :=
  if env.allowance < required then
    if 0 < env.allowance then
      if env.resetConfirms then
        if env.approveConfirms then
          if env.allowanceAfterApprove < required then
            ([0, required], .error (.approvalFailed required env.allowanceAfterApprove))
          else ([0, required], .ok env.allowance)
        else ([0, required], .error .reverted)
      else ([0], .error .reverted)
    else
      if env.approveConfirms then
        if env.allowanceAfterApprove < required then
          ([required], .error (.approvalFailed required env.allowanceAfterApprove))
        else ([required], .ok env.allowance)
      else ([required], .error .reverted)
  else ([], .ok env.allowance)

/-- C5: with current allowance `A` and required total `R` (and confirming
writes), the guard issues exactly two approve writes — `0` then `R`, in that
order — when `0 < A < R`; exactly one write (`R`) when `A = 0 < R`; and no
write when `A ≥ R`; and on any write path it re-reads the allowance and fails
with an approval error exactly when the re-read value is below `R`. -/
theorem checkTokenAllowance_write_counts (env : AllowanceEnv) (R : Nat) :
    (0 < env.allowance → env.allowance < R →
      env.resetConfirms = true → env.approveConfirms = true →
      (checkTokenAllowance env R).1 = [0, R]) ∧
    (env.allowance = 0 → 0 < R →
      (checkTokenAllowance env R).1 = [R]) ∧
    (R ≤ env.allowance → (checkTokenAllowance env R).1 = []) ∧
    (env.allowance < R →
      env.resetConfirms = true → env.approveConfirms = true →
      ((checkTokenAllowance env R).2 =
          .error (.approvalFailed R env.allowanceAfterApprove) ↔
        env.allowanceAfterApprove < R)) := by
  refine ⟨?_, ?_, ?_, ?_⟩
  · intro hA hAR hrc hac
    rcases Nat.lt_or_ge env.allowanceAfterApprove R with hre | hre <;>
      simp [checkTokenAllowance, hA, hAR, hrc, hac, hre, Nat.not_lt.mpr]
  · intro hA hR
    cases hac : env.approveConfirms <;>
      rcases Nat.lt_or_ge env.allowanceAfterApprove R with hre | hre <;>
        simp [checkTokenAllowance, hA, hR, hac, hre, Nat.not_lt.mpr]
  · intro hRA
    simp [checkTokenAllowance, Nat.not_lt.mpr hRA]
  · intro hAR hrc hac
    by_cases h0 : 0 < env.allowance <;>
      by_cases hre : env.allowanceAfterApprove < R <;>
        simp [checkTokenAllowance, hAR, hrc, hac, h0, hre, Nat.not_lt.mp,
          Nat.lt_irrefl]

/-- Witness for C5 at concrete inputs: allowance 5, required 10, confirming
writes, re-read 10 — exactly the writes `[0, 10]` and no approval error. -/
theorem checkTokenAllowance_write_counts_witness :
    (checkTokenAllowance ⟨5, true, true, 10⟩ 10).1 = [0, 10] :=
  (checkTokenAllowance_write_counts ⟨5, true, true, 10⟩ 10).1
    (by decide) (by decide) rfl rfl

/-! ## Sampling verifier (`prepareVerificationData`, transferHelpers.ts)

The sample count is `Math.max(1, Math.min(Math.ceil(recipients.length * 0.1),
10))`, computed in IEEE-754 double arithmetic.  The double computation is
embedded exactly over `Nat`: the literal `0.1` is the double
`3602879701896397 / 2^55`, the product `N * 0.1` is the exact integer product
`N * 3602879701896397` rounded to 53 significant bits (round-to-nearest,
ties-to-even) over the fixed denominator `2^55`, and `Math.ceil` is the
ceiling of the resulting rational.  This is exact for every length a JS array
can have (below `2^32`, hence below `2^53`, so the length itself is an exact
double and no exponent overflow can occur).  Index selection draws
`Math.floor(Math.random() * recipients.length)` into a `Set` until the target
size is reached; the random source is abstracted as the sequence of values it
produces and the `Set` as a duplicate-free list in insertion order. -/

/-- Bit length of a natural number (`0` for `0`), by fuelled structural
recursion so that concrete values kernel-reduce; `bitLen` supplies fuel `n`,
which always suffices. -/
def bitLenAux : Nat → Nat → Nat
  | 0, _ => 0
  | fuel + 1, n => if n = 0 then 0 else bitLenAux fuel (n / 2) + 1

/-- Bit length: `2 ^ (bitLen n - 1) ≤ n < 2 ^ bitLen n` for `n ≥ 1`. -/
def bitLen (n : Nat) : Nat := bitLenAux n n

/-- Numerator of the IEEE-754 double nearest to `0.1`:
`0.1 = 3602879701896397 / 2^55`. -/
def tenthNum : Nat := 3602879701896397

/-- Denominator of the double value `0.1`. -/
def tenthDen : Nat := 2 ^ 55

/-- Round-to-nearest, ties-to-even of a quotient `q` with remainder `rem`
relative to the half-divisor `half`. -/
def roundQ (q rem half : Nat) : Nat :=
  if half < rem then q + 1
  else if rem < half then q
  else if q % 2 = 0 then q else q + 1

/-- Round `p` to 53 significant bits (round-to-nearest, ties-to-even): the
numerator of the IEEE-754 double product when the exact product over a fixed
power-of-two denominator has numerator `p`. -/
def roundSig (p : Nat) : Nat :=
  if bitLen p - 53 = 0 then p
  else roundQ (p / 2 ^ (bitLen p - 53)) (p % 2 ^ (bitLen p - 53))
    (2 ^ (bitLen p - 53 - 1)) * 2 ^ (bitLen p - 53)

/-- Embeds `Math.ceil(n * 0.1)` in double arithmetic: the exact numerator
`n * tenthNum` is rounded to a representable significand and the ceiling of
the rounded value over `tenthDen` is taken. -/
def tenPercentOf (n : Nat) : Nat :=
  (roundSig (n * tenthNum) + (tenthDen - 1)) / tenthDen

/-- Embeds `Math.max(1, Math.min(tenPercent, 10))` of
`prepareVerificationData`. -/
def samplesToCheck (n : Nat) : Nat :=
  max 1 (min (tenPercentOf n) 10)

theorem bitLenAux_zero (fuel : Nat) : bitLenAux fuel 0 = 0 := by
  cases fuel <;> simp [bitLenAux]

theorem bitLenAux_spec : ∀ fuel n, n ≤ fuel → 1 ≤ n →
    2 ^ (bitLenAux fuel n - 1) ≤ n ∧ n < 2 ^ bitLenAux fuel n := by
  intro fuel
  induction fuel with
  | zero => intro n h1 h2; omega
  | succ fuel ih =>
    intro n h1 h2
    rw [bitLenAux, if_neg (by omega)]
    rcases Nat.lt_or_ge n 2 with hn | hn
    · have hn1 : n = 1 := by omega
      subst hn1
      simp [bitLenAux_zero]
    · have hdiv1 : 1 ≤ n / 2 := by omega
      have hdivf : n / 2 ≤ fuel := by omega
      obtain ⟨ha, hb⟩ := ih (n / 2) hdivf hdiv1
      have hm1 : 1 ≤ bitLenAux fuel (n / 2) := by
        by_contra hm
        have : bitLenAux fuel (n / 2) = 0 := by omega
        rw [this] at hb
        simp at hb
        omega
      have hpow : 2 ^ bitLenAux fuel (n / 2) =
          2 * 2 ^ (bitLenAux fuel (n / 2) - 1) := by
        conv_lhs => rw [show bitLenAux fuel (n / 2) =
          (bitLenAux fuel (n / 2) - 1) + 1 by omega]
        rw [Nat.pow_succ]
        ring
      have hpow2 : 2 ^ (bitLenAux fuel (n / 2) + 1) =
          2 * 2 ^ bitLenAux fuel (n / 2) := by
        rw [Nat.pow_succ]; ring
      simp only [Nat.add_sub_cancel]
      omega

theorem bitLen_spec (n : Nat) (h : 1 ≤ n) :
    2 ^ (bitLen n - 1) ≤ n ∧ n < 2 ^ bitLen n :=
  bitLenAux_spec n n le_rfl h

theorem roundQ_ge (q rem half : Nat) : q ≤ roundQ q rem half := by
  unfold roundQ
  split
  · omega
  · split
    · omega
    · split <;> omega

theorem roundSig_ge (p : Nat) : p - p / 2 ^ 52 ≤ roundSig p := by
  unfold roundSig
  by_cases h : bitLen p - 53 = 0
  · rw [if_pos h]
    omega
  · rw [if_neg h]
    have hp1 : 1 ≤ p := by
      by_contra hp
      have : p = 0 := by omega
      subst this
      simp [bitLen, bitLenAux_zero] at h
    obtain ⟨hlo, _⟩ := bitLen_spec p hp1
    have hbl : bitLen p - 1 = (bitLen p - 53) + 52 := by omega
    rw [hbl] at hlo
    have hexp : 2 ^ (bitLen p - 53) * 2 ^ 52 ≤ p := by
      rw [← Nat.pow_add]
      exact hlo
    have hdivle : 2 ^ (bitLen p - 53) ≤ p / 2 ^ 52 :=
      (Nat.le_div_iff_mul_le (by positivity)).mpr hexp
    have hdm : p / 2 ^ (bitLen p - 53) * 2 ^ (bitLen p - 53) +
        p % 2 ^ (bitLen p - 53) = p := Nat.div_add_mod' p _
    have hrem : p % 2 ^ (bitLen p - 53) < 2 ^ (bitLen p - 53) :=
      Nat.mod_lt _ (by positivity)
    have hmul : p / 2 ^ (bitLen p - 53) * 2 ^ (bitLen p - 53) ≤
        roundQ (p / 2 ^ (bitLen p - 53)) (p % 2 ^ (bitLen p - 53))
          (2 ^ (bitLen p - 53 - 1)) * 2 ^ (bitLen p - 53) :=
      Nat.mul_le_mul_right _ (roundQ_ge _ _ _)
    omega

theorem tenPercentOf_ge_ten (N : Nat) (hN : 91 ≤ N) : 10 ≤ tenPercentOf N := by
  have h2 := roundSig_ge (N * tenthNum)
  unfold tenPercentOf tenthDen
  unfold tenthNum at *
  omega

set_option maxRecDepth 100000 in
theorem samplesToCheck_le_90 : ∀ n, n < 91 → 1 ≤ n →
    samplesToCheck n = max 1 (min ((n + 9) / 10) 10) := by decide

theorem samplesToCheck_formula (N : Nat) (hN : 1 ≤ N) :
    samplesToCheck N = max 1 (min ((N + 9) / 10) 10) := by
  rcases Nat.lt_or_ge N 91 with h | h
  · exact samplesToCheck_le_90 N h hN
  · have h1 : 10 ≤ tenPercentOf N := tenPercentOf_ge_ten N h
    have h2 : 10 ≤ (N + 9) / 10 := by omega
    unfold samplesToCheck
    omega

theorem samplesToCheck_le (N : Nat) (hN : 1 ≤ N) : samplesToCheck N ≤ N := by
  rw [samplesToCheck_formula N hN]
  omega

/-- Embeds the index-selection loop of `prepareVerificationData`:
`while (selectedIndexes.size < samplesToCheck) selectedIndexes.add(randomIndex)`.
`rand calls` is the value of the `calls`-th `Math.floor(Math.random() * N)`;
the JS `Set` is the accumulator list (insertion order, no duplicates); one
fuel unit is one loop iteration, `none` meaning the loop has not finished
within the given iterations. -/
def selectIndexesLoop (rand : Nat → Nat) (target : Nat) :
    Nat → Nat → List Nat → Option (List Nat)
  | 0, _, acc => if target ≤ acc.length then some acc else none
  | fuel + 1, calls, acc =>
      if acc.length < target then
        selectIndexesLoop rand target fuel (calls + 1)
          (if rand calls ∈ acc then acc else acc ++ [rand calls])
      else some acc

/-- The selection loop from its initial state (empty set, first random
call). -/
def selectIndexes (rand : Nat → Nat) (target fuel : Nat) : Option (List Nat) :=
  selectIndexesLoop rand target fuel 0 []

theorem selectIndexesLoop_spec (rand : Nat → Nat) (n target : Nat)
    (hrand : ∀ k, rand k < n) :
    ∀ fuel calls acc, acc.Nodup → acc.length ≤ target → (∀ i ∈ acc, i < n) →
      ∀ s, selectIndexesLoop rand target fuel calls acc = some s →
        s.Nodup ∧ s.length = target ∧ ∀ i ∈ s, i < n := by
  intro fuel
  induction fuel with
  | zero =>
    intro calls acc hnd hlen hmem s hs
    rw [selectIndexesLoop] at hs
    by_cases hc : target ≤ acc.length
    · rw [if_pos hc] at hs
      obtain rfl := Option.some.inj hs
      exact ⟨hnd, by omega, hmem⟩
    · rw [if_neg hc] at hs
      cases hs
  | succ fuel ih =>
    intro calls acc hnd hlen hmem s hs
    rw [selectIndexesLoop] at hs
    by_cases hc : acc.length < target
    · rw [if_pos hc] at hs
      by_cases hmemr : rand calls ∈ acc
      · rw [if_pos hmemr] at hs
        exact ih (calls + 1) acc hnd hlen hmem s hs
      · rw [if_neg hmemr] at hs
        refine ih (calls + 1) (acc ++ [rand calls]) ?_ ?_ ?_ s hs
        · simp [List.nodup_append, hnd, hmemr]
        · simp only [List.length_append, List.length_cons, List.length_nil]
          omega
        · intro i hi
          rcases List.mem_append.mp hi with h | h
          · exact hmem i h
          · simp only [List.mem_singleton] at h
            subst h
            exact hrand calls
    · rw [if_neg hc] at hs
      obtain rfl := Option.some.inj hs
      exact ⟨hnd, by omega, hmem⟩

/-- C6: for a batch of length `N ≥ 1`, the sampling verifier's count equals
`clamp(ceil(0.1 * N), 1, 10)` (the exact ceiling `(N + 9) / 10` clamped to
`[1, 10]` — the double-precision `Math.ceil(N * 0.1)` of the source never
deviates from the exact value after clamping), the count never exceeds `N`,
and whenever the selection loop finishes, the selected indices are pairwise
distinct, exactly as many as the count, and all within the batch's index
range. -/
theorem prepareVerificationData_sample_spec (N : Nat) (hN : 1 ≤ N)
    (rand : Nat → Nat) (hrand : ∀ k, rand k < N) :
    samplesToCheck N = max 1 (min ((N + 9) / 10) 10) ∧
    samplesToCheck N ≤ N ∧
    ∀ fuel s, selectIndexes rand (samplesToCheck N) fuel = some s →
      s.Nodup ∧ s.length = samplesToCheck N ∧ ∀ i ∈ s, i < N := by
  refine ⟨samplesToCheck_formula N hN, samplesToCheck_le N hN, ?_⟩
  intro fuel s hs
  exact selectIndexesLoop_spec rand N (samplesToCheck N) hrand fuel 0 []
    List.nodup_nil (by simp) (by simp) s hs

/-- Witness for C6 at a concrete input: batch length 5, a random stream that
always returns index 0. -/
theorem prepareVerificationData_sample_spec_witness :
    samplesToCheck 5 = max 1 (min ((5 + 9) / 10) 10) ∧
    samplesToCheck 5 ≤ 5 ∧
    ∀ fuel s, selectIndexes (fun _ => 0) (samplesToCheck 5) fuel = some s →
      s.Nodup ∧ s.length = samplesToCheck 5 ∧ ∀ i ∈ s, i < 5 :=
  prepareVerificationData_sample_spec 5 (by decide) (fun _ => 0)
    (fun _ => Nat.succ_pos 4)

/-! ## Amount parsing (`parseWeiAmount`, test/helpers)

`parseWeiAmount` strips quotes and whitespace (`replace(/["'\\s]/g, '')`),
strips thousands separators (`replace(/,/g, '')`), rejects anything not
matching `^\\d+$`, and converts the rest with `BigInt`.  Strings are embedded
as `List Char`; `\\s` is the JS whitespace class (ASCII whitespace, NBSP,
the Unicode space block, line/paragraph separators, and the BOM). -/

/-- The regex digit class `\\d` = `[0-9]`. -/
def isDigitChar (c : Char) : Bool :=
  decide (48 ≤ c.toNat) && decide (c.toNat ≤ 57)

/-- An ASCII letter (for the rejection half of the round-trip claim). -/
def isLetterChar (c : Char) : Bool :=
  (decide (65 ≤ c.toNat) && decide (c.toNat ≤ 90)) ||
  (decide (97 ≤ c.toNat) && decide (c.toNat ≤ 122))

/-- The character class `["'\\s]` of the first strip: double quote (34),
single quote (39), and JS whitespace. -/
def isQuoteOrWs (c : Char) : Bool :=
  c == Char.ofNat 34 || c == Char.ofNat 39 || c == ' ' || c == Char.ofNat 9 ||
  c == Char.ofNat 10 || c == Char.ofNat 11 || c == Char.ofNat 12 ||
  c == Char.ofNat 13 || c == Char.ofNat 0xa0 || c == Char.ofNat 0x1680 ||
  (decide (0x2000 ≤ c.toNat) && decide (c.toNat ≤ 0x200a)) ||
  c == Char.ofNat 0x2028 || c == Char.ofNat 0x2029 || c == Char.ofNat 0x202f ||
  c == Char.ofNat 0x205f || c == Char.ofNat 0x3000 || c == Char.ofNat 0xfeff

/-- The two strips of `parseWeiAmount`: quotes/whitespace, then commas. -/
def cleanAmount (cs : List Char) : List Char :=
  (cs.filter (fun c => !isQuoteOrWs c)).filter (fun c => c != ',')

/-- `BigInt(cleaned)` on an all-digit string: the decimal value. -/
def digitsToNat (cs : List Char) : Nat :=
  cs.foldl (fun n c => n * 10 + (c.toNat - 48)) 0

/-- Embeds `parseWeiAmount(amountString)`: clean, test `^\\d+$`, convert;
a failed test throws `Invalid amount format`. -/
def parseWeiAmount (cs : List Char) : Except String Nat :=
  let cleaned := cleanAmount cs
  if !cleaned.isEmpty && cleaned.all isDigitChar then .ok (digitsToNat cleaned)
  else .error "Invalid amount format"

/-- Decimal digit string of a natural number (most significant first), by
fuelled structural recursion; `natToDigits` supplies enough fuel. -/
def natToDigitsAux : Nat → Nat → List Char
  | 0, _ => []
  | fuel + 1, n =>
      if n < 10 then [Nat.digitChar n]
      else natToDigitsAux fuel (n / 10) ++ [Nat.digitChar (n % 10)]

/-- The canonical decimal formatting of `n` (what the claim's "formatting n
as a decimal string" produces before separators/quotes/whitespace are
added). -/
def natToDigits (n : Nat) : List Char := natToDigitsAux (n + 1) n

theorem digitChar_props : ∀ d, d < 10 →
    isDigitChar (Nat.digitChar d) = true ∧
    (Nat.digitChar d).toNat - 48 = d ∧
    isQuoteOrWs (Nat.digitChar d) = false ∧
    (Nat.digitChar d != ',') = true := by decide

theorem natToDigitsAux_spec : ∀ fuel n, n < fuel →
    natToDigitsAux fuel n ≠ [] ∧
    (∀ c ∈ natToDigitsAux fuel n,
      isDigitChar c = true ∧ isQuoteOrWs c = false ∧ (c != ',') = true) ∧
    digitsToNat (natToDigitsAux fuel n) = n := by
  intro fuel
  induction fuel with
  | zero => intro n h; omega
  | succ fuel ih =>
    intro n h
    by_cases hn : n < 10
    · rw [natToDigitsAux, if_pos hn]
      obtain ⟨d1, d2, d3, d4⟩ := digitChar_props n hn
      refine ⟨by simp, ?_, ?_⟩
      · intro c hc
        simp only [List.mem_singleton] at hc
        subst hc
        exact ⟨d1, d3, d4⟩
      · simp [digitsToNat, d2]
    · rw [natToDigitsAux, if_neg hn]
      have hdivf : n / 10 < fuel := by omega
      obtain ⟨ih1, ih2, ih3⟩ := ih (n / 10) hdivf
      obtain ⟨d1, d2, d3, d4⟩ := digitChar_props (n % 10) (by omega)
      refine ⟨by simp, ?_, ?_⟩
      · intro c hc
        rcases List.mem_append.mp hc with hc | hc
        · exact ih2 c hc
        · simp only [List.mem_singleton] at hc
          subst hc
          exact ⟨d1, d3, d4⟩
      · unfold digitsToNat
        rw [List.foldl_append]
        unfold digitsToNat at ih3
        rw [ih3]
        simp only [List.foldl_cons, List.foldl_nil]
        omega

theorem bad_char_not_digit (c : Char)
    (h : isLetterChar c = true ∨ c = Char.ofNat 45 ∨ c = Char.ofNat 46) :
    isDigitChar c = false := by
  rcases h with h | h | h
  · simp only [isLetterChar, Bool.or_eq_true, Bool.and_eq_true,
      decide_eq_true_eq] at h
    have h57 : ¬(c.toNat ≤ 57) := by omega
    simp [isDigitChar, h57]
  · subst h; decide
  · subst h; decide

/-- C7: any decimal formatting of a natural number `n` — the digit string of
`n` with thousands separators, whitespace, or quotes freely inserted (i.e.
any string whose cleaned form is exactly the digits of `n`) — parses back to
`n`; and any string whose cleaned form still contains a letter, a negative
sign (`-`, code 45) or a decimal point (`.`, code 46) is rejected with an
error. -/
theorem parseWeiAmount_round_trip :
    (∀ (n : Nat) (s : List Char), cleanAmount s = natToDigits n →
      parseWeiAmount s = .ok n) ∧
    (∀ s : List Char,
      (∃ c ∈ cleanAmount s,
        isLetterChar c = true ∨ c = Char.ofNat 45 ∨ c = Char.ofNat 46) →
      ∃ m, parseWeiAmount s = .error m) := by
  constructor
  · intro n s hs
    obtain ⟨h1, h2, h3⟩ := natToDigitsAux_spec (n + 1) n (Nat.lt_succ_self n)
    unfold parseWeiAmount
    rw [hs]
    rw [if_pos ?_]
    · unfold natToDigits
      rw [h3]
    · unfold natToDigits
      rw [Bool.and_eq_true]
      constructor
      · rw [Bool.not_eq_true']
        rw [← Bool.not_eq_true]
        intro hcontra
        exact h1 (List.isEmpty_iff.mp hcontra)
      · rw [List.all_eq_true]
        intro c hc
        exact (h2 c hc).1
  · intro s ⟨c, hc, hbad⟩
    refine ⟨"Invalid amount format", ?_⟩
    unfold parseWeiAmount
    rw [if_neg ?_]
    intro hcontra
    rw [Bool.and_eq_true, List.all_eq_true] at hcontra
    have := hcontra.2 c hc
    rw [bad_char_not_digit c hbad] at this
    cases this

/-- Witness for C7 at concrete inputs: `"1,234"` parses to `1234`, and
`"-5"` is rejected. -/
theorem parseWeiAmount_round_trip_witness :
    parseWeiAmount ('1' :: ',' :: '2' :: '3' :: '4' :: []) = .ok 1234 ∧
    ∃ m, parseWeiAmount (Char.ofNat 45 :: '5' :: []) = .error m :=
  ⟨parseWeiAmount_round_trip.1 1234 ('1' :: ',' :: '2' :: '3' :: '4' :: [])
      (by decide),
    parseWeiAmount_round_trip.2 (Char.ofNat 45 :: '5' :: [])
      ⟨Char.ofNat 45, by decide, Or.inr (Or.inl rfl)⟩⟩

/-! ## Recipient loader (`loadRecipients`) and duplicate addresses

`loadRecipients` folds parsed `[address, amount]` rows into a
`Map<string, bigint>` keyed by `address.toLowerCase()`; `Map.prototype.set`
overwrites the value of an existing key in place (keeping its position) and
appends new keys, so of several rows whose addresses agree up to letter case
only the last row's amount survives.  The on-chain `bulkSendERC20Different`
loop (BulkSender.sol), by contrast, performs one `safeTransfer` per row, so a
duplicated address receives the sum of its rows' amounts.  Lowercasing is
embedded as the ASCII case map on the string's character data (the hex
addresses in scope are ASCII). -/

/-- ASCII lowercasing of one character. -/
def toLowerChar (c : Char) : Char :=
  if 65 ≤ c.toNat ∧ c.toNat ≤ 90 then Char.ofNat (c.toNat + 32) else c

/-- Embeds `address.toLowerCase()` on the character data. -/
def toLowerString (s : String) : String := ⟨s.data.map toLowerChar⟩

/-- Embeds `Map.prototype.get` (exact key equality). -/
def mapGet : List (String × Int) → String → Option Int
  | [], _ => none
  | p :: rest, k => if p.1 = k then some p.2 else mapGet rest k

/-- Embeds `Map.prototype.set`: overwrite in place when the key exists, else
append. -/
def mapSet (m : List (String × Int)) (k : String) (v : Int) : List (String × Int) :=
  if m.any (fun p => decide (p.1 = k)) then
    m.map (fun p => if p.1 = k then (k, v) else p)
  else m ++ [(k, v)]

/-- Embeds the `loadRecipients` accumulation loop:
`recipientMap.set(address.toLowerCase(), amount)` per parsed row, in order. -/
def loadRecipients (rows : List (String × Int)) : List (String × Int) :=
  rows.foldl (fun acc r => mapSet acc (toLowerString r.1) r.2) []

/-- The amount of the last row whose lowercased address is `k` (what
last-write-wins should leave in the map). -/
def lastAmount (rows : List (String × Int)) (k : String) : Option Int :=
  (rows.reverse.find? (fun r => decide (toLowerString r.1 = k))).map Prod.snd

/-- Total amount the rows address to account `k` (addresses compared
case-insensitively — hex case does not change the on-chain account). -/
def sumAmounts : List (String × Int) → String → Int
  | [], _ => 0
  | r :: rest, k => (if toLowerString r.1 = k then r.2 else 0) + sumAmounts rest k

/-- Embeds the distribution loop of `bulkSendERC20Different`
(BulkSender.sol): `for i: erc20Token.safeTransfer(recipients[i], amounts[i])`
— each row adds its amount to its recipient's balance. -/
def bulkSendDistribute : List (String × Int) → (String → Int) → String → Int
  | [], bal => bal
  | r :: rest, bal =>
      bulkSendDistribute rest
        (fun a => if a = toLowerString r.1 then bal a + r.2 else bal a)

theorem mapGet_map_update_ne (kk k : String) (v : Int) (hk : k ≠ kk) :
    ∀ m : List (String × Int),
      mapGet (m.map (fun p => if p.1 = kk then (kk, v) else p)) k = mapGet m k := by
  intro m
  induction m with
  | nil => rfl
  | cons p rest ih =>
    by_cases hp : p.1 = kk
    · rw [List.map_cons, if_pos hp]
      simp only [mapGet]
      rw [if_neg (fun h => hk h.symm), if_neg (fun h => hk (hp ▸ h).symm)]
      exact ih
    · rw [List.map_cons, if_neg hp]
      simp only [mapGet]
      by_cases hpk : p.1 = k
      · rw [if_pos hpk, if_pos hpk]
      · rw [if_neg hpk, if_neg hpk]
        exact ih

theorem mapGet_map_update_self (kk : String) (v : Int) :
    ∀ m : List (String × Int), m.any (fun p => decide (p.1 = kk)) = true →
      mapGet (m.map (fun p => if p.1 = kk then (kk, v) else p)) kk = some v := by
  intro m
  induction m with
  | nil => intro h; cases h
  | cons p rest ih =>
    intro h
    by_cases hp : p.1 = kk
    · rw [List.map_cons, if_pos hp]
      simp [mapGet]
    · rw [List.map_cons, if_neg hp]
      simp only [mapGet]
      rw [if_neg hp]
      apply ih
      simp only [List.any_cons, Bool.or_eq_true] at h
      rcases h with h | h
      · exact absurd (of_decide_eq_true h) hp
      · exact h

theorem mapGet_eq_none_of_any_false (k : String) :
    ∀ m : List (String × Int), m.any (fun p => decide (p.1 = k)) = false →
      mapGet m k = none := by
  intro m
  induction m with
  | nil => intro _; rfl
  | cons p rest ih =>
    intro h
    simp only [List.any_cons, Bool.or_eq_false_iff] at h
    simp only [mapGet]
    rw [if_neg (by simpa using h.1)]
    exact ih h.2

theorem mapGet_append_single (m : List (String × Int)) (kk k : String) (v : Int) :
    mapGet (m ++ [(kk, v)]) k =
      (mapGet m k).or (if kk = k then some v else none) := by
  induction m with
  | nil =>
    simp only [List.nil_append, mapGet]
    by_cases h : kk = k
    · rw [if_pos h]
      rfl
    · rw [if_neg h]
      rfl
  | cons p rest ih =>
    simp only [List.cons_append, mapGet]
    by_cases hpk : p.1 = k
    · rw [if_pos hpk, if_pos hpk]
      rfl
    · rw [if_neg hpk, if_neg hpk]
      exact ih

theorem mapGet_mapSet (m : List (String × Int)) (kk k : String) (v : Int) :
    mapGet (mapSet m kk v) k = if k = kk then some v else mapGet m k := by
  unfold mapSet
  cases hany : m.any (fun p => decide (p.1 = kk))
  · rw [if_neg (by simp)]
    rw [mapGet_append_single]
    by_cases hk : k = kk
    · subst hk
      rw [if_pos rfl, if_pos rfl]
      rw [mapGet_eq_none_of_any_false k m hany]
      rfl
    · rw [if_neg hk, if_neg (fun h => hk h.symm)]
      exact Option.or_none
  · rw [if_pos rfl]
    by_cases hk : k = kk
    · subst hk
      rw [if_pos rfl]
      exact mapGet_map_update_self k v m hany
    · rw [if_neg hk]
      exact mapGet_map_update_ne kk k v hk m

theorem mapGet_loadRecipientsFrom :
    ∀ (rows m : List (String × Int)) (k : String),
      mapGet (rows.foldl (fun acc r => mapSet acc (toLowerString r.1) r.2) m) k =
        (lastAmount rows k).or (mapGet m k) := by
  intro rows
  induction rows with
  | nil =>
    intro m k
    simp [lastAmount, List.foldl_nil]
  | cons r rest ih =>
    intro m k
    rw [List.foldl_cons, ih, mapGet_mapSet]
    have hlast : lastAmount (r :: rest) k =
        (lastAmount rest k).or
          (if toLowerString r.1 = k then some r.2 else none) := by
      unfold lastAmount
      rw [List.reverse_cons, List.find?_append]
      cases hfind : rest.reverse.find? (fun q => decide (toLowerString q.1 = k))
      · simp only [hfind, Option.none_or]
        by_cases hr : toLowerString r.1 = k
        · simp [List.find?_cons, hr]
        · simp [List.find?_cons, hr]
      · simp [hfind]
    rw [hlast]
    cases hl : lastAmount rest k
    · simp only [Option.none_or]
      by_cases hk : k = toLowerString r.1
      · rw [if_pos hk, if_pos hk.symm]
        rfl
      · rw [if_neg hk, if_neg (fun h => hk h.symm)]
        simp
    · simp

theorem mapSet_keys_nodup (m : List (String × Int)) (k : String) (v : Int)
    (h : (m.map Prod.fst).Nodup) : ((mapSet m k v).map Prod.fst).Nodup := by
  unfold mapSet
  cases hany : m.any (fun p => decide (p.1 = k))
  · rw [if_neg (by simp)]
    rw [List.map_append]
    refine h.append (by simp) ?_
    intro a ha hb
    simp only [List.map_cons, List.map_nil, List.mem_singleton] at hb
    subst hb
    obtain ⟨p, hp, hpa⟩ := List.mem_map.mp ha
    rw [List.any_eq_false] at hany
    exact hany p hp (decide_eq_true hpa)
  · rw [if_pos rfl]
    have heq : (m.map (fun p => if p.1 = k then (k, v) else p)).map Prod.fst =
        m.map Prod.fst := by
      rw [List.map_map]
      apply List.map_congr_left
      intro p _
      by_cases hpk : p.1 = k
      · simp [Function.comp, hpk]
      · simp [Function.comp, hpk]
    rw [heq]
    exact h

theorem loadRecipients_keys_nodup_aux :
    ∀ (rows m : List (String × Int)), (m.map Prod.fst).Nodup →
      (((rows.foldl (fun acc r => mapSet acc (toLowerString r.1) r.2) m)).map
        Prod.fst).Nodup := by
  intro rows
  induction rows with
  | nil => intro m hm; exact hm
  | cons r rest ih =>
    intro m hm
    rw [List.foldl_cons]
    exact ih _ (mapSet_keys_nodup m _ _ hm)

theorem countP_keys_le_one (k : String) :
    ∀ m : List (String × Int), (m.map Prod.fst).Nodup →
      m.countP (fun p => decide (p.1 = k)) ≤ 1 := by
  intro m
  induction m with
  | nil => intro _; simp
  | cons p rest ih =>
    intro h
    rw [List.map_cons, List.nodup_cons] at h
    rw [List.countP_cons]
    by_cases hp : p.1 = k
    · have h0 : rest.countP (fun q => decide (q.1 = k)) = 0 := by
        rw [List.countP_eq_zero]
        intro q hq
        simp only [decide_eq_true_eq]
        intro hqk
        exact h.1 ((hp ▸ hqk : q.1 = p.1) ▸ List.mem_map_of_mem Prod.fst hq)
      simp [hp, h0]
    · simp [hp, ih h.2]

theorem countP_pos_of_mapGet_some (k : String) (v : Int) :
    ∀ m : List (String × Int), mapGet m k = some v →
      1 ≤ m.countP (fun p => decide (p.1 = k)) := by
  intro m
  induction m with
  | nil => intro h; cases h
  | cons p rest ih =>
    intro h
    rw [List.countP_cons]
    simp only [mapGet] at h
    by_cases hp : p.1 = k
    · simp [hp]
    · rw [if_neg hp] at h
      have := ih h
      simp only [decide_eq_true_eq, hp]
      omega

theorem bulkSendDistribute_sum :
    ∀ (rows : List (String × Int)) (bal : String → Int) (k : String),
      bulkSendDistribute rows bal k = bal k + sumAmounts rows k := by
  intro rows
  induction rows with
  | nil => intro bal k; simp [bulkSendDistribute, sumAmounts]
  | cons r rest ih =>
    intro bal k
    simp only [bulkSendDistribute, sumAmounts]
    rw [ih]
    by_cases hk : k = toLowerString r.1
    · rw [if_pos hk, if_pos hk.symm]
      ring
    · rw [if_neg hk, if_neg (fun h => hk h.symm)]
      ring

/-- C9: the recipient loader keeps at most one map entry per lowercased
address (its keys are duplicate-free), the surviving amount for a key is the
amount of the LAST row with that lowercased address (amounts are not summed),
the reconciliation engine consequently produces exactly one result for an
address present in the rows; on-chain, by contrast, the contract's
distribution loop credits an account with the SUM of the amounts of all its
rows. -/
theorem loadRecipients_last_wins (rows : List (String × Int)) (k : String)
    (startBalances endBalances : List (String × Int)) (bal : String → Int) :
    ((loadRecipients rows).map Prod.fst).Nodup ∧
    mapGet (loadRecipients rows) k = lastAmount rows k ∧
    ((lastAmount rows k).isSome →
      (verifyTransfers startBalances endBalances (loadRecipients rows)).countP
        (fun r => decide (r.address = k)) = 1) ∧
    bulkSendDistribute rows bal k = bal k + sumAmounts rows k := by
  have hnodup : ((loadRecipients rows).map Prod.fst).Nodup :=
    loadRecipients_keys_nodup_aux rows [] (by simp)
  have hget : mapGet (loadRecipients rows) k = lastAmount rows k := by
    have h := mapGet_loadRecipientsFrom rows [] k
    rw [show mapGet [] k = none from rfl] at h
    rw [Option.or_none] at h
    exact h
  refine ⟨hnodup, hget, ?_, bulkSendDistribute_sum rows bal k⟩
  intro hsome
  obtain ⟨v, hv⟩ := Option.isSome_iff_exists.mp hsome
  have hgv : mapGet (loadRecipients rows) k = some v := hget.trans hv
  have hpos := countP_pos_of_mapGet_some k v (loadRecipients rows) hgv
  have hle := countP_keys_le_one k (loadRecipients rows) hnodup
  have hcount : (verifyTransfers startBalances endBalances
      (loadRecipients rows)).countP (fun r => decide (r.address = k)) =
      (loadRecipients rows).countP (fun p => decide (p.1 = k)) := by
    unfold verifyTransfers
    rw [List.countP_map]
    rfl
  omega

/-- Witness for C9 at a concrete input: rows `[("0xA", 5), ("0xa", 7)]` —
the loader keeps the single entry `"0xa" ↦ 7` (last write wins, not `12`),
one reconciliation result is produced, while the contract loop would credit
`0xa` with `12`. -/
theorem loadRecipients_last_wins_witness :
    mapGet (loadRecipients [("0xA", 5), ("0xa", 7)]) "0xa" = some 7 ∧
    (verifyTransfers [] [] (loadRecipients [("0xA", 5), ("0xa", 7)])).countP
      (fun r => decide (r.address = "0xa")) = 1 ∧
    bulkSendDistribute [("0xA", 5), ("0xa", 7)] (fun _ => 0) "0xa" = 12 := by
  obtain ⟨h1, h2, h3, h4⟩ :=
    loadRecipients_last_wins [("0xA", 5), ("0xa", 7)] "0xa" [] [] (fun _ => 0)
  refine ⟨?_, h3 (by decide), ?_⟩
  · rw [h2]
    decide
  · rw [h4]
    decide

end BulkSender
